import Mathlib

/-!
Verification of the distributed-cache-service repository: a shallow
embedding of the in-memory store with TTL and eviction policies, the
eviction policies themselves (LRU, FIFO, LFU, Random), the consistent-hash
ring, the transport demultiplexer and the request gateway, together with
theorems settling the specification claims.
-/

namespace DCache

/-! ### Association lists: the model of Go maps (`map[string]*Item`, `map[int]string`). -/

section Assoc

variable {α β : Type} [DecidableEq α]

/-- Lookup in an association list (first match), modelling Go map read. -/
def lookupA (k : α) : List (α × β) → Option β
  | [] => none
  | (a, b) :: t => if a = k then some b else lookupA k t

/-- Insert-or-replace in an association list, modelling Go map write. -/
def insertA (k : α) (v : β) : List (α × β) → List (α × β)
  | [] => [(k, v)]
  | (a, b) :: t => if a = k then (k, v) :: t else (a, b) :: insertA k v t

/-- Remove the first binding of a key, modelling Go `delete(m, k)`. -/
def eraseA (k : α) : List (α × β) → List (α × β)
  | [] => []
  | (a, b) :: t => if a = k then t else (a, b) :: eraseA k t

/-- The keys of an association list. -/
def keysA (l : List (α × β)) : List α := l.map Prod.fst

end Assoc

/-! ### Eviction policies (internal/store/policy). -/

/-- LRU `OnAccess`: `MoveToFront` of the element when tracked (part_009). -/
def lruOnAccess (l : List String) (k : String) : List String :=
  if k ∈ l then k :: l.erase k else l

/-- LRU `OnAdd`: move to front when tracked, else `PushFront` (part_009). -/
def lruOnAdd (l : List String) (k : String) : List String :=
  if k ∈ l then k :: l.erase k else k :: l

/-- LRU `OnRemove`: remove the element when tracked (part_009). -/
def lruOnRemove (l : List String) (k : String) : List String := l.erase k

/-- LRU `SelectVictim`: the back of the list, `""` when empty (part_009). -/
def lruVictim (l : List String) : String := l.getLast?.getD ""

/-- FIFO `OnAdd`: keep original position when tracked, else `PushBack` (fifo.go). -/
def fifoOnAdd (l : List String) (k : String) : List String :=
  if k ∈ l then l else l ++ [k]

/-- FIFO `OnRemove`: remove the element when tracked (fifo.go). -/
def fifoOnRemove (l : List String) (k : String) : List String := l.erase k

/-- FIFO `SelectVictim`: the front (oldest) element, `""` when empty (fifo.go). -/
def fifoVictim (l : List String) : String := l.head?.getD ""

/-- Random `OnAdd`: unconditional append to the candidate slice (random.go). -/
def randOnAdd (l : List String) (k : String) : List String := l ++ [k]

/-- Index of the first element satisfying a predicate, modelling the Go
`for i, k := range ...` search loops. -/
def findIdxA {α : Type} (p : α → Bool) : List α → Option Nat
  | [] => none
  | x :: t => if p x then some 0 else (findIdxA p t).map (· + 1)

/-- Random `OnRemove`: find the first occurrence, swap with the last slot
and truncate (random.go). -/
def randOnRemove (l : List String) (k : String) : List String :=
  match findIdxA (fun x => x = k) l with
  | none => l
  | some i => (l.set i (l.getLast?.getD "")).dropLast

/-- Random `SelectVictim`: uniform index into the slice, `""` when empty
(random.go); the random draw `Intn(len)` is modelled by `rnd % len`. -/
def randVictim (l : List String) (rnd : Nat) : String :=
  if l.isEmpty then "" else l.getD (rnd % l.length) ""

/-! LFU (lfu.go): a binary min-heap over (key, frequency) pairs, with the
`container/heap` sift operations modelled index-for-index.  The Go
`items` index map is represented by positional search, which agrees with
the pointers because `Swap` keeps every `index` field equal to the
position. -/

/-- Read a heap slot, defaulting out-of-range (never reached on real runs). -/
def hGetD (a : List (String × Int)) (i : Nat) : String × Int := a.getD i ("", 0)

/-- The heap order: `Less(i, j)` compares frequencies (lfu.go `Less`). -/
def hLess (a : List (String × Int)) (i j : Nat) : Bool :=
  decide ((hGetD a i).2 < (hGetD a j).2)

/-- Swap two heap slots (lfu.go `Swap`). -/
def hSwap (a : List (String × Int)) (i j : Nat) : List (String × Int) :=
  (a.set i (hGetD a j)).set j (hGetD a i)

/-- Parent index in the implicit binary heap: `i := (j - 1) / 2`. -/
def hParent (j : Nat) : Nat := (j - 1) / 2

/-- The `container/heap` sift-up loop (`up`); the loop's `i == j` exit
happens exactly when `j = 0`. -/
def hUp (a : List (String × Int)) (j : Nat) : List (String × Int) :=
  if _h : j = 0 then a
  else if hLess a j (hParent j) then hUp (hSwap a (hParent j) j) (hParent j)
  else a
termination_by j
decreasing_by
  simp only [hParent]
  omega

/-- The smaller child chosen by `down`: `j1 := 2i+1`, bumped to `j2 := j1+1`
when the right child exists and compares lower. -/
def hChild (n : Nat) (a : List (String × Int)) (i : Nat) : Nat :=
  if 2 * i + 1 + 1 < n ∧ hLess a (2 * i + 1 + 1) (2 * i + 1) then 2 * i + 1 + 1
  else 2 * i + 1

/-- The `container/heap` sift-down loop; returns the final index as well. -/
def hDownGo (n : Nat) (a : List (String × Int)) (i : Nat) :
    List (String × Int) × Nat :=
  if _h : 2 * i + 1 < n then
    if hLess a (hChild n a i) i then
      hDownGo n (hSwap a i (hChild n a i)) (hChild n a i)
    else (a, i)
  else (a, i)
termination_by n - i
decreasing_by
  simp only [hChild]
  split <;> omega

/-- The `container/heap` `down`, returning whether the element moved. -/
def hDown (a : List (String × Int)) (i0 n : Nat) : List (String × Int) × Bool :=
  let r := hDownGo n a i0
  (r.1, i0 < r.2)

/-- The `container/heap` `Fix`. -/
def hFix (a : List (String × Int)) (i : Nat) : List (String × Int) :=
  let r := hDown a i a.length
  if r.2 then r.1 else hUp r.1 i

/-- The `container/heap` `Push`: append then sift up from the last slot. -/
def hPush (a : List (String × Int)) (x : String × Int) : List (String × Int) :=
  hUp (a ++ [x]) a.length

/-- The `container/heap` `Remove(i)`: swap with the last slot, restore the
heap on the prefix, then pop the last slot. -/
def hRemoveAt (a : List (String × Int)) (i : Nat) : List (String × Int) :=
  let n := a.length - 1
  let a2 :=
    if n = i then a
    else
      let a1 := hSwap a i n
      let r := hDown a1 i n
      if r.2 then r.1 else hUp r.1 i
  a2.dropLast

/-- Position of a key in the LFU heap: the Go `items[key].index`, which
`Swap` keeps identical to the key's position in the array. -/
def lfuFindIdx (a : List (String × Int)) (k : String) : Option Nat :=
  findIdxA (fun e => e.1 = k) a

/-- LFU `OnAccess`: increment the frequency in place, then `heap.Fix` (lfu.go). -/
def lfuOnAccess (a : List (String × Int)) (k : String) : List (String × Int) :=
  match lfuFindIdx a k with
  | none => a
  | some i => hFix (a.set i (k, (hGetD a i).2 + 1)) i

/-- LFU `OnAdd`: behave as an access when tracked, else `heap.Push` with
frequency 1 (lfu.go). -/
def lfuOnAdd (a : List (String × Int)) (k : String) : List (String × Int) :=
  match lfuFindIdx a k with
  | some i => hFix (a.set i (k, (hGetD a i).2 + 1)) i
  | none => hPush a (k, 1)

/-- LFU `OnRemove`: `heap.Remove` at the tracked index (lfu.go). -/
def lfuOnRemove (a : List (String × Int)) (k : String) : List (String × Int) :=
  match lfuFindIdx a k with
  | none => a
  | some i => hRemoveAt a i

/-- LFU `SelectVictim`: peek the heap root, `""` when empty (lfu.go). -/
def lfuVictim (a : List (String × Int)) : String :=
  match a with
  | [] => ""
  | e :: _ => e.1

/-- The state of one eviction policy instance. -/
inductive PState where
  | lruS (l : List String)
  | fifoS (l : List String)
  | lfuS (a : List (String × Int))
  | randS (l : List String)
deriving Repr, DecidableEq

/-- Dispatch `OnAccess` (a no-op for FIFO and Random). -/
def PState.onAccess : PState → String → PState
  | .lruS l, k => .lruS (lruOnAccess l k)
  | .fifoS l, _ => .fifoS l
  | .lfuS a, k => .lfuS (lfuOnAccess a k)
  | .randS l, _ => .randS l

/-- Dispatch `OnAdd`. -/
def PState.onAdd : PState → String → PState
  | .lruS l, k => .lruS (lruOnAdd l k)
  | .fifoS l, k => .fifoS (fifoOnAdd l k)
  | .lfuS a, k => .lfuS (lfuOnAdd a k)
  | .randS l, k => .randS (randOnAdd l k)

/-- Dispatch `OnRemove`. -/
def PState.onRemove : PState → String → PState
  | .lruS l, k => .lruS (lruOnRemove l k)
  | .fifoS l, k => .fifoS (fifoOnRemove l k)
  | .lfuS a, k => .lfuS (lfuOnRemove a k)
  | .randS l, k => .randS (randOnRemove l k)

/-- Whether a policy state is the Random policy. -/
def PState.isRandB : PState → Bool
  | .randS _ => true
  | _ => false

/-- Dispatch `SelectVictim`; `rnd` feeds only the Random policy. -/
def PState.victim : PState → Nat → String
  | .lruS l, _ => lruVictim l
  | .fifoS l, _ => fifoVictim l
  | .lfuS a, _ => lfuVictim a
  | .randS l, rnd => randVictim l rnd

/-- The set of keys a policy currently tracks. -/
def PState.tracked : PState → List String
  | .lruS l => l
  | .fifoS l => l
  | .lfuS a => a.map Prod.fst
  | .randS l => l

/-- The four pluggable policy kinds. -/
inductive PKind where
  | lru | fifo | lfu | random
deriving Repr, DecidableEq

/-- A freshly constructed policy of each kind. -/
def PKind.init : PKind → PState
  | .lru => .lruS []
  | .fifo => .fifoS []
  | .lfu => .lfuS []
  | .random => .randS []

/-- One call of the policy interface. -/
inductive POp where
  | acc (k : String)
  | add (k : String)
  | rem (k : String)
deriving Repr, DecidableEq

/-- Dispatch one interface call. -/
def PState.stepOp (p : PState) : POp → PState
  | .acc k => p.onAccess k
  | .add k => p.onAdd k
  | .rem k => p.onRemove k

/-- Run a sequence of interface calls. -/
def PState.runOps (p : PState) (ops : List POp) : PState :=
  ops.foldl PState.stepOp p

/-- The keys a policy should track according to the call history: added
by `on_add` and not since removed by `on_remove`. -/
def specTracked (t : Finset String) : List POp → Finset String
  | [] => t
  | .acc _ :: r => specTracked t r
  | .add k :: r => specTracked (insert k t) r
  | .rem k :: r => specTracked (t.erase k) r

/-- Whether a call sequence never calls `on_add` on an already-tracked key. -/
def freshAdds (t : Finset String) : List POp → Bool
  | [] => true
  | .acc _ :: r => freshAdds t r
  | .add k :: r => !(decide (k ∈ t)) && freshAdds (insert k t) r
  | .rem k :: r => freshAdds (t.erase k) r

/-! ### The store (internal/store/store.go). -/

/-- A cached value with its absolute expiration (nanoseconds; 0 = never). -/
structure Item where
  value : String
  expiration : Int
deriving Repr, DecidableEq

/-- The in-memory store: items map, capacity (0 = unbounded), optional policy. -/
structure Store where
  items : List (String × Item)
  capacity : Nat
  policy : Option PState
deriving Repr, DecidableEq

/-- A fresh store (`store.New` with the given options applied). -/
def Store.new (capacity : Nat) (policy : Option PState) : Store :=
  ⟨[], capacity, policy⟩

/-- Whether an item is expired at absolute time `now` (`Get`'s test). -/
def Item.expiredAt (it : Item) (now : Int) : Bool :=
  decide (0 < it.expiration) && decide (it.expiration < now)

/-- `Store.Get` evaluated at clock reading `now`: returns (value, found)
and the updated store (the policy may record an access). -/
def Store.GetAt (s : Store) (now : Int) (key : String) :
    (String × Bool) × Store :=
  match lookupA key s.items with
  | none => (("", false), s)
  | some it =>
    if it.expiredAt now then (("", false), s)
    else ((it.value, true), { s with policy := s.policy.map (PState.onAccess · key) })

/-- `Store.deleteInternal`: remove the key and notify the policy if present. -/
def Store.deleteInternal (s : Store) (key : String) : Store :=
  if (lookupA key s.items).isSome then
    { s with items := eraseA key s.items,
             policy := s.policy.map (PState.onRemove · key) }
  else s

/-- The eviction step of `Store.Set` for a new key: when a positive
capacity is reached and a policy is present, ask it for a victim and
delete the victim unless the policy answered none (`""`). -/
def Store.maybeEvict (s : Store) (rnd : Nat) : Store :=
  if 0 < s.capacity ∧ s.capacity ≤ s.items.length then
    match s.policy with
    | some p =>
      let victim := p.victim rnd
      if victim ≠ "" then s.deleteInternal victim else s
    | none => s
  else s

/-- `Store.Set` evaluated at clock reading `now`; `rnd` feeds the Random
policy's victim draw.  An existing key is an access; a new key may first
evict a victim when at capacity, then notifies `OnAdd`. -/
def Store.SetAt (s : Store) (rnd : Nat) (now : Int) (key value : String)
    (ttl : Int) : Store :=
  let s1 :=
    if (lookupA key s.items).isSome then
      { s with policy := s.policy.map (PState.onAccess · key) }
    else
      let s2 := s.maybeEvict rnd
      { s2 with policy := s2.policy.map (PState.onAdd · key) }
  { s1 with items := insertA key ⟨value, if 0 < ttl then now + ttl else 0⟩ s1.items }

/-- `Store.Delete`. -/
def Store.Delete (s : Store) (key : String) : Store := s.deleteInternal key

/-- `Store.deleteExpired` (the periodic sweep body): remove expired items
from the map.  The policy is not notified. -/
def Store.deleteExpired (s : Store) (now : Int) : Store :=
  { s with items := s.items.filter (fun e => !(e.2.expiredAt now)) }

/-- `Store.Snapshot`: the JSON encoding serializes exactly the items map. -/
def Store.Snapshot (s : Store) : List (String × Item) := s.items

/-- `Store.Restore`: `json.Decode` into the existing non-nil map keeps the
entries already present and stores every decoded pair, i.e. it merges. -/
def Store.Restore (s : Store) (snap : List (String × Item)) : Store :=
  { s with items := snap.foldl (fun acc e => insertA e.1 e.2 acc) s.items }

/-- One store operation, for reachability statements. -/
inductive SOp where
  | get (now : Int) (key : String)
  | set (rnd : Nat) (now : Int) (key value : String) (ttl : Int)
  | del (key : String)
  | sweep (now : Int)
  | restore (snap : List (String × Item))
deriving Repr

/-- Apply one operation to the store. -/
def Store.applyOp (s : Store) : SOp → Store
  | .get now key => (s.GetAt now key).2
  | .set rnd now key value ttl => s.SetAt rnd now key value ttl
  | .del key => s.Delete key
  | .sweep now => s.deleteExpired now
  | .restore snap => s.Restore snap

/-- Run a sequence of operations. -/
def Store.run (s : Store) (ops : List SOp) : Store := ops.foldl Store.applyOp s

/-- An operation is a plain mutation or read: no sweep, no restore. -/
def SOp.basic : SOp → Prop
  | .get _ _ => True
  | .set _ _ _ _ _ => True
  | .del _ => True
  | .sweep _ => False
  | .restore _ => False

/-- A basic operation whose written key is nonempty. -/
def SOp.basicNonempty : SOp → Prop
  | .get _ _ => True
  | .set _ _ key _ _ => key ≠ ""
  | .del _ => True
  | .sweep _ => False
  | .restore _ => False

instance : DecidablePred SOp.basic := by
  intro op; cases op <;> simp [SOp.basic] <;> infer_instance

instance : DecidablePred SOp.basicNonempty := by
  intro op; cases op <;> simp [SOp.basicNonempty] <;> infer_instance

/-- The store-and-policy consistency invariant the spec demands, plus the
bookkeeping (distinct map keys, distinct policy candidates) that Go's map
and the policies maintain by construction. -/
def Store.inv (s : Store) : Prop :=
  (keysA s.items).Nodup ∧
  ∀ p, s.policy = some p →
    (p.tracked.Nodup ∧ ∀ x, (x ∈ p.tracked ↔ x ∈ keysA s.items))

/-- The full invariant for a capacity-bounded store: consistency, a fixed
positive capacity, a present policy, no empty-string key, and the bound. -/
def Store.capInv (C : Nat) (s : Store) : Prop :=
  s.inv ∧ s.capacity = C ∧ s.policy.isSome ∧
  ("" ∉ keysA s.items) ∧ s.items.length ≤ C

/-! ### Consistent-hash ring (internal/sharding, part_012). -/

/-- The `sort.Ints` call: sort ascending. -/
def sortInts (l : List Nat) : List Nat := l.insertionSort (· ≤ ·)

/-- The ring (`sharding.Map`): a hash function, the virtual-node factor,
the sorted hash list and the hash-to-node map. -/
structure RingMap where
  hash : String → Nat
  virtualNodes : Nat
  keys : List Nat
  hashMap : List (Nat × String)

/-- A fresh ring (`sharding.New`). -/
def RingMap.new (virtualNodes : Nat) (hash : String → Nat) : RingMap :=
  ⟨hash, virtualNodes, [], []⟩

/-- `Map.Add`: append `virtualNodes` hashes per node (hashing
`strconv.Itoa(i) + key`), record them in the map, then sort. -/
def RingMap.Add (m : RingMap) (nodes : List String) : RingMap :=
  let st := nodes.foldl
    (fun (acc : List Nat × List (Nat × String)) key =>
      (List.range m.virtualNodes).foldl
        (fun (acc2 : List Nat × List (Nat × String)) i =>
          let h := m.hash (toString i ++ key)
          (acc2.1 ++ [h], insertA h key acc2.2))
        acc)
    (m.keys, m.hashMap)
  { m with keys := sortInts st.1, hashMap := st.2 }

/-- `Map.Remove`: rebuild the map without the node's entries, rebuild the
hash list from the map, then sort. -/
def RingMap.Remove (m : RingMap) (node : String) : RingMap :=
  let pairs := m.hashMap.filter (fun e => e.2 ≠ node)
  { m with hashMap := pairs, keys := sortInts (keysA pairs) }

/-- The `sort.Search` binary-search loop (`h := (i+j)/2` inlined). -/
def sGo (f : Nat → Bool) (i j : Nat) : Nat :=
  if _h : i < j then
    if f ((i + j) / 2) then sGo f i ((i + j) / 2)
    else sGo f ((i + j) / 2 + 1) j
  else i
termination_by j - i
decreasing_by
  all_goals omega

/-- `sort.Search(n, f)`. -/
def sortSearch (n : Nat) (f : Nat → Bool) : Nat := sGo f 0 n

/-- `Map.Get`: binary search for the first hash at or above the key's
hash, wrapping past the end to index 0; `""` on an empty ring. -/
def RingMap.Get (m : RingMap) (key : String) : String :=
  if m.keys.isEmpty then ""
  else
    (lookupA
      (m.keys.getD
        (if sortSearch m.keys.length
              (fun i => decide (m.hash key ≤ m.keys.getD i 0)) =
            m.keys.length then 0
         else sortSearch m.keys.length
              (fun i => decide (m.hash key ≤ m.keys.getD i 0)))
        0)
      m.hashMap).getD ""

/-- The smallest element of a list of hashes. -/
def minNat : List Nat → Option Nat
  | [] => none
  | x :: xs => some (xs.foldl min x)

/-- The owner of a key as the specification words it: the node stored at
the first ring entry whose hash is at least `H(key)`, wrapping to the
entry with the smallest hash; none (`""`) on an empty ring. -/
def ringOwnerSpec (m : RingMap) (key : String) : String :=
  match m.keys.find? (fun x => decide (m.hash key ≤ x)) with
  | some hx => (lookupA hx m.hashMap).getD ""
  | none =>
    match minNat m.keys with
    | some hx => (lookupA hx m.hashMap).getD ""
    | none => ""

/-- One ring operation. -/
inductive ROp where
  | add (nodes : List String)
  | rem (node : String)

/-- Apply one ring operation. -/
def RingMap.applyOp (m : RingMap) : ROp → RingMap
  | .add nodes => m.Add nodes
  | .rem node => m.Remove node

/-- Run a sequence of ring operations. -/
def RingMap.run (m : RingMap) (ops : List ROp) : RingMap :=
  ops.foldl RingMap.applyOp m

/-! ### Transport demultiplexer (internal/consensus/raft.go). -/

/-- The HTTP-method first-byte test of `RaftListener.Accept`. -/
def httpFirstByte (b : Nat) : Bool :=
  (b == 'G'.toNat) || (b == 'H'.toNat) || (b == 'P'.toNat) ||
  (b == 'C'.toNat) || (b == 'O'.toNat) || (b == 'D'.toNat)

/-- The exact bytes `Accept` writes back to an HTTP probe. -/
def httpOkResponse : String :=
  "HTTP/1.1 200 OK\r\nConnection: close\r\nContent-Length: 2\r\n\r\nok"

/-- A connection wrapper replaying the peeked byte before the stream rest. -/
structure BufferedConn where
  peeked : List Nat
  rest : List Nat
deriving Repr, DecidableEq

/-- The outcome of `RaftListener.Accept` for one incoming connection. -/
inductive AcceptOutcome where
  | httpReply (response : String)
  | surfaced (c : BufferedConn)
  | dropped
deriving Repr, DecidableEq

/-- `RaftListener.Accept` on one connection whose incoming stream is
`input`: an empty read drops the connection; an HTTP first byte is
answered and closed; anything else surfaces wrapped to the transport. -/
def acceptConn (input : List Nat) : AcceptOutcome :=
  match input with
  | [] => .dropped
  | b :: rest =>
    if httpFirstByte b then .httpReply httpOkResponse
    else .surfaced ⟨[b], rest⟩

/-- `BufferedConn.Read` with a buffer of size `bufSize`: drain the peeked
bytes first, then pass reads through to the underlying stream. -/
def BufferedConn.read (c : BufferedConn) (bufSize : Nat) :
    List Nat × BufferedConn :=
  if c.peeked.isEmpty then (c.rest.take bufSize, ⟨[], c.rest.drop bufSize⟩)
  else (c.peeked.take bufSize, ⟨c.peeked.drop bufSize, c.rest⟩)

/-- Everything the consensus transport will read from the wrapper. -/
def BufferedConn.drain (c : BufferedConn) : List Nat := c.peeked ++ c.rest

/-! ### Request gateway (internal/core/service/service.go). -/

/-- The `SET` command tag. -/
def SetOp : String := "SET"

/-- The `DELETE` command tag. -/
def DeleteOp : String := "DELETE"

/-- A replicated mutation command (`service.Command`). -/
structure Command where
  op : String
  key : String
  value : String
  ttl : Int
deriving Repr, DecidableEq

/-- `FSM.Apply` after a successful decode: dispatch the command to the
store (fsm.go). -/
def FSM.applyCommand (c : Command) (rnd : Nat) (now : Int) (s : Store) :
    Except String Store :=
  if c.op = SetOp then .ok (s.SetAt rnd now c.key c.value c.ttl)
  else if c.op = DeleteOp then .ok (s.Delete c.key)
  else .error "unknown command op"

/-- The mock storage of the concurrency test (part_014): a data map plus
an invocation counter bumped on every `Get`. -/
structure MockStore where
  data : List (String × String)
  calls : Nat
deriving Repr, DecidableEq

/-- `MockStore.Get`: one store lookup, counted. -/
def MockStore.Get (m : MockStore) (key : String) : (String × Bool) × MockStore :=
  (match lookupA key m.data with
   | some v => (v, true)
   | none => ("", false),
   { m with calls := m.calls + 1 })

/-- `ServiceImpl.Get` as implemented (service.go): exactly one
`store.Get` per call, then a found/not-found branch; the gateway keeps no
cross-call state, so any interleaving of concurrent calls performs the
same store invocations. -/
def ServiceImpl.GetOn (m : MockStore) (key : String) :
    (Except String String) × MockStore :=
  let r := m.Get key
  if r.1.2 then (.ok r.1.1, r.2) else (.error "key not found", r.2)

/-- The store state after a group of `c` gateway gets on one key. -/
def concurrentGets (m : MockStore) (key : String) (c : Nat) : MockStore :=
  (List.range c).foldl (fun acc _ => (ServiceImpl.GetOn acc key).2) m

/-- The gateway's consistency mode (referenced by the server main as
`service.ConsistencyStrong` / `service.ConsistencyEventual`). -/
inductive ConsistencyMode where
  | strong | eventual
deriving Repr, DecidableEq

/-- Client-visible read errors: not-found versus the consistency error. -/
inductive GetErr where
  | notFound | notLeader
deriving Repr, DecidableEq

/-- Modelled from the spec: the consistency-mode `ServiceImpl.Get` of the
gateway (the mode-aware service implementation is referenced by the
server main and by `ports.Consensus.VerifyLeader`, but its source file is
not in the packaged tree).  Strong mode calls `consensus.verify_leader`
and returns a consistency error on failure, reading the local store only
on success; eventual mode reads the local store directly. -/
def serviceGetMode (mode : ConsistencyMode) (leaderOk : Bool)
    (stored : Option String) : Except GetErr String :=
  match mode with
  | .strong =>
    if leaderOk then
      match stored with
      | some v => .ok v
      | none => .error .notFound
    else .error .notLeader
  | .eventual =>
    match stored with
    | some v => .ok v
    | none => .error .notFound

/-! ### HTTP translator (/set handler of the server main, part_000/part_002). -/

/-- The observable effect of one `/set` request. -/
inductive HttpSetResult where
  | badRequest (msg : String)
  | submitted (cmd : Command)
deriving Repr, DecidableEq

/-- The `/set` handler: read the `key` and `value` query parameters
(`Query().Get` yields `""` when absent), reject an empty key with 400,
otherwise call `svc.Set(ctx, key, value, 0)`, which builds a `SET`
command with TTL 0 and submits it. -/
def httpSetHandler (query : String → Option String) : HttpSetResult :=
  let key := (query "key").getD ""
  let value := (query "value").getD ""
  if key = "" then .badRequest "missing key"
  else .submitted { op := SetOp, key := key, value := value, ttl := 0 }

/-! ### Association-list lemmas. -/

section AssocLemmas

variable {α β : Type} [DecidableEq α] {k k2 x : α} {v : β} {l : List (α × β)}

theorem lookupA_insertA_self (k : α) (v : β) (l : List (α × β)) :
    lookupA k (insertA k v l) = some v := by
  induction l with
  | nil => simp [insertA, lookupA]
  | cons e t ih =>
    obtain ⟨a, b⟩ := e
    by_cases h : a = k
    · subst h
      simp [insertA, lookupA]
    · simp [insertA, lookupA, h, ih]

theorem lookupA_insertA_ne (h : k2 ≠ k) :
    lookupA k2 (insertA k v l) = lookupA k2 l := by
  induction l with
  | nil => simp [insertA, lookupA, Ne.symm h]
  | cons e t ih =>
    obtain ⟨a, b⟩ := e
    by_cases he : a = k
    · subst he
      simp [insertA, lookupA, Ne.symm h]
    · by_cases he2 : a = k2
      · subst he2
        simp [insertA, lookupA, he]
      · simp [insertA, lookupA, he, he2, ih]

theorem mem_keysA_iff_isSome {k : α} {l : List (α × β)} :
    k ∈ keysA l ↔ (lookupA k l).isSome := by
  induction l with
  | nil => simp [keysA, lookupA]
  | cons e t ih =>
    obtain ⟨a, b⟩ := e
    by_cases h : a = k
    · subst h
      simp [keysA, lookupA]
    · simp only [keysA, List.map_cons, List.mem_cons, lookupA, if_neg h]
      simp only [keysA] at ih
      constructor
      · rintro (h1 | h2)
        · exact absurd h1.symm h
        · exact ih.mp h2
      · intro hs
        exact Or.inr (ih.mpr hs)

theorem mem_keysA_insertA {x k : α} {v : β} {l : List (α × β)} :
    x ∈ keysA (insertA k v l) ↔ x = k ∨ x ∈ keysA l := by
  induction l with
  | nil => simp [insertA, keysA]
  | cons e t ih =>
    obtain ⟨a, b⟩ := e
    by_cases h : a = k
    · subst h
      have he : insertA a v ((a, b) :: t) = (a, v) :: t := by
        simp [insertA]
      rw [he]
      simp only [keysA, List.map_cons, List.mem_cons]
      tauto
    · simp only [insertA, if_neg h, keysA, List.map_cons, List.mem_cons]
      simp only [keysA] at ih
      rw [ih]
      tauto

theorem length_insertA (k : α) (v : β) (l : List (α × β)) :
    (insertA k v l).length =
      if (lookupA k l).isSome then l.length else l.length + 1 := by
  induction l with
  | nil => simp [insertA, lookupA]
  | cons e t ih =>
    obtain ⟨a, b⟩ := e
    by_cases h : a = k
    · subst h
      simp [insertA, lookupA]
    · simp [insertA, lookupA, h, ih]
      split <;> simp

theorem nodup_keysA_insertA {k : α} {v : β} {l : List (α × β)}
    (hnd : (keysA l).Nodup) : (keysA (insertA k v l)).Nodup := by
  induction l with
  | nil => simp [insertA, keysA]
  | cons e t ih =>
    obtain ⟨a, b⟩ := e
    simp only [keysA, List.map_cons, List.nodup_cons] at hnd
    by_cases h : a = k
    · subst h
      simpa [insertA, keysA, List.nodup_cons] using hnd
    · simp only [insertA, if_neg h, keysA, List.map_cons, List.nodup_cons]
      refine ⟨?_, ih hnd.2⟩
      intro hmem
      rcases mem_keysA_insertA.mp hmem with h1 | h2
      · exact h h1
      · exact hnd.1 h2

theorem mem_keysA_eraseA {x k : α} {l : List (α × β)}
    (hnd : (keysA l).Nodup) :
    x ∈ keysA (eraseA k l) ↔ x ∈ keysA l ∧ x ≠ k := by
  induction l with
  | nil => simp [eraseA, keysA]
  | cons e t ih =>
    obtain ⟨a, b⟩ := e
    simp only [keysA, List.map_cons, List.nodup_cons] at hnd
    by_cases h : a = k
    · subst h
      have he : eraseA a ((a, b) :: t) = t := by
        simp [eraseA]
      rw [he]
      simp only [keysA, List.map_cons, List.mem_cons]
      constructor
      · intro hx
        refine ⟨Or.inr hx, ?_⟩
        intro he2
        exact hnd.1 (by rwa [he2] at hx)
      · rintro ⟨hx | hx, hne⟩
        · exact absurd hx hne
        · exact hx
    · have ih2 := ih hnd.2
      simp only [keysA] at ih2
      simp only [eraseA, if_neg h, keysA, List.map_cons, List.mem_cons, ih2]
      constructor
      · rintro (hx | ⟨hx, hne⟩)
        · subst hx
          exact ⟨Or.inl rfl, h⟩
        · exact ⟨Or.inr hx, hne⟩
      · rintro ⟨hx | hx, hne⟩
        · exact Or.inl hx
        · exact Or.inr ⟨hx, hne⟩

theorem nodup_keysA_eraseA {k : α} {l : List (α × β)}
    (hnd : (keysA l).Nodup) : (keysA (eraseA k l)).Nodup := by
  induction l with
  | nil => simp [eraseA, keysA]
  | cons e t ih =>
    obtain ⟨a, b⟩ := e
    simp only [keysA, List.map_cons, List.nodup_cons] at hnd
    by_cases h : a = k
    · subst h
      simpa [eraseA, keysA] using hnd.2
    · simp only [eraseA, if_neg h, keysA, List.map_cons, List.nodup_cons]
      refine ⟨?_, ih hnd.2⟩
      intro hmem
      exact hnd.1 ((mem_keysA_eraseA hnd.2).mp hmem).1

theorem length_eraseA_isSome {k : α} {l : List (α × β)}
    (h : (lookupA k l).isSome) :
    (eraseA k l).length + 1 = l.length := by
  induction l with
  | nil => simp [lookupA] at h
  | cons e t ih =>
    obtain ⟨a, b⟩ := e
    by_cases he : a = k
    · subst he
      simp [eraseA]
    · simp only [lookupA, if_neg he] at h
      simp [eraseA, he, ih h]

theorem lookupA_eraseA_none {k : α} {l : List (α × β)}
    (hnd : (keysA l).Nodup) :
    lookupA k (eraseA k l) = none := by
  cases h : lookupA k (eraseA k l) with
  | none => rfl
  | some v =>
    have hk : k ∈ keysA (eraseA k l) := by
      rw [mem_keysA_iff_isSome, h]
      rfl
    exact absurd rfl ((mem_keysA_eraseA hnd).mp hk).2

end AssocLemmas

/-! ### List swap and removal permutation helpers. -/

section ListHelpers

variable {α : Type} [DecidableEq α] {d : α}

theorem set_getD_self (l : List α) (i : Nat) (h : i < l.length) :
    l.set i (l.getD i d) = l := by
  rw [List.getD_eq_getElem l d h]
  apply List.ext_getElem
  · simp
  · intro j h1 h2
    rw [List.getElem_set]
    split
    · next he => subst he; rfl
    · rfl

theorem count_set_getD (c x : α) (l : List α) (i : Nat) (h : i < l.length) :
    (l.set i x).count c + (if l.getD i d = c then 1 else 0) =
      l.count c + (if x = c then 1 else 0) := by
  induction l generalizing i with
  | nil => simp at h
  | cons a t ih =>
    cases i with
    | zero =>
      simp only [List.set_cons_zero, List.getD_cons_zero, List.count_cons]
      split_ifs <;> simp_all <;> omega
    | succ n =>
      have hn : n < t.length := by simpa using h
      have := ih n hn
      simp only [List.set_cons_succ, List.getD_cons_succ, List.count_cons]
      split_ifs at this ⊢ <;> simp_all <;> omega

theorem getD_set_ne (l : List α) (x : α) {i m : Nat} (hne : i ≠ m) :
    (l.set i x).getD m d = l.getD m d := by
  by_cases hm : m < l.length
  · rw [List.getD_eq_getElem _ d (by simpa using hm),
      List.getElem_set_ne hne, List.getD_eq_getElem l d hm]
  · have h1 : l.length ≤ m := le_of_not_lt hm
    rw [List.getD_eq_default _ d h1,
      List.getD_eq_default _ d (by simpa using h1)]

theorem getD_set_self (l : List α) (x : α) {i : Nat} (hi : i < l.length) :
    (l.set i x).getD i d = x := by
  rw [List.getD_eq_getElem _ d (by simpa using hi), List.getElem_set_self]

theorem swap_perm (l : List α) (i j : Nat) (hi : i < l.length)
    (hj : j < l.length) :
    ((l.set i (l.getD j d)).set j (l.getD i d)).Perm l := by
  by_cases hij : i = j
  · subst hij
    rw [set_getD_self l i hi, set_getD_self l i hi]
  · rw [List.perm_iff_count]
    intro c
    have h1 := count_set_getD (d := d) c (l.getD j d) l i hi
    have hj2 : j < (l.set i (l.getD j d)).length := by simpa using hj
    have h2 := count_set_getD (d := d) c (l.getD i d) (l.set i (l.getD j d)) j hj2
    rw [getD_set_ne (d := d) l (l.getD j d) hij] at h2
    split_ifs at h1 h2 <;> omega

theorem append_singleton_perm_erase {l res : List α} {k : α}
    (hnd : l.Nodup) (h : (res ++ [k]).Perm l) : res.Perm (l.erase k) := by
  have hk : k ∈ l := h.mem_iff.mp (by simp)
  have h2 : (res ++ [k]).Perm (k :: l.erase k) :=
    h.trans (List.perm_cons_erase hk)
  have h3 : (k :: res).Perm (k :: l.erase k) :=
    (List.perm_append_singleton k res).symm.trans h2
  exact (List.perm_cons k).mp h3

theorem getLastD_eq_getD (l : List α) (hne : l ≠ []) :
    l.getLast?.getD d = l.getD (l.length - 1) d := by
  have hlt : l.length - 1 < l.length := by
    have := List.length_pos.mpr hne
    omega
  rw [List.getLast?_eq_getElem?, List.getElem?_eq_getElem hlt,
    List.getD_eq_getElem l d hlt]
  rfl

theorem count_singleton_ite (c x : α) :
    List.count c [x] = if x = c then 1 else 0 := by
  by_cases h : x = c
  · subst h
    simp
  · simp [List.count_cons, List.count_nil, h]

theorem count_dropLast_add (l : List α) (hne : l ≠ []) (c : α) :
    l.dropLast.count c + (if l.getLast?.getD d = c then 1 else 0) =
      l.count c := by
  conv_rhs => rw [← List.dropLast_append_getLast hne]
  rw [List.count_append, count_singleton_ite]
  have hgl : l.getLast hne = l.getLast?.getD d := by
    rw [List.getLast?_eq_getLast l hne]
    rfl
  rw [hgl]

theorem removeAt_swapLast_perm (l : List α) (i : Nat) (hi : i < l.length) :
    (((l.set i (l.getLast?.getD d)).dropLast) ++ [l.getD i d]).Perm l := by
  have hne : l ≠ [] := List.ne_nil_of_length_pos (by omega)
  by_cases hil : i = l.length - 1
  · subst hil
    rw [getLastD_eq_getD l hne, set_getD_self l _ hi]
    have hgl : l.getLast hne = l.getD (l.length - 1) d := by
      rw [List.getLast_eq_getElem, List.getD_eq_getElem l d (by omega)]
    rw [← hgl]
    exact List.Perm.of_eq (List.dropLast_append_getLast hne)
  · rw [List.perm_iff_count]
    intro c
    set lst := l.getLast?.getD d with hlastdef
    set b := l.set i lst with hb
    have hbl : b.length = l.length := by
      rw [hb]
      simp
    have hbne : b ≠ [] := List.ne_nil_of_length_pos (by omega)
    have h1 := count_set_getD (d := d) c lst l i hi
    rw [← hb] at h1
    have hlastb : b.getLast?.getD d = lst := by
      rw [getLastD_eq_getD b hbne, hbl, hb, getD_set_ne _ _ hil,
        hlastdef, ← getLastD_eq_getD l hne]
    have h2 := count_dropLast_add (d := d) b hbne c
    rw [hlastb] at h2
    rw [List.count_append, count_singleton_ite]
    split_ifs at h1 h2 ⊢ <;> omega

end ListHelpers

/-! ### Heap operation lemmas (the container/heap model used by LFU). -/

theorem hSwap_length (a : List (String × Int)) (i j : Nat) :
    (hSwap a i j).length = a.length := by
  simp [hSwap]

theorem hSwap_perm {a : List (String × Int)} {i j : Nat}
    (hi : i < a.length) (hj : j < a.length) : (hSwap a i j).Perm a :=
  swap_perm a i j hi hj

theorem hSwap_getD_out {a : List (String × Int)} {i j m : Nat}
    (h1 : i ≠ m) (h2 : j ≠ m) :
    (hSwap a i j).getD m ("", 0) = a.getD m ("", 0) := by
  unfold hSwap hGetD
  rw [getD_set_ne _ _ h2, getD_set_ne _ _ h1]

theorem hParent_lt {j : Nat} (h : j ≠ 0) : hParent j < j := by
  simp only [hParent]
  omega

theorem hChild_gt (n : Nat) (a : List (String × Int)) (i : Nat) :
    i < hChild n a i := by
  simp only [hChild]
  split <;> omega

theorem hChild_lt {n : Nat} {a : List (String × Int)} {i : Nat}
    (h : 2 * i + 1 < n) : hChild n a i < n := by
  simp only [hChild]
  split <;> omega

theorem hUp_length (a : List (String × Int)) (j : Nat) :
    (hUp a j).length = a.length := by
  induction a, j using hUp.induct with
  | case1 a =>
    rw [hUp, dif_pos rfl]
  | case2 a j hj hless ih =>
    rw [hUp, dif_neg hj, if_pos hless, ih, hSwap_length]
  | case3 a j hj hless =>
    rw [hUp, dif_neg hj, if_neg hless]

theorem hUp_perm (a : List (String × Int)) (j : Nat) :
    j < a.length → (hUp a j).Perm a := by
  induction a, j using hUp.induct with
  | case1 a =>
    intro _
    rw [hUp, dif_pos rfl]
  | case2 a j hj hless ih =>
    intro hjl
    rw [hUp, dif_neg hj, if_pos hless]
    have hp : hParent j < j := hParent_lt hj
    have hswap := hSwap_perm (a := a) (i := hParent j) (j := j)
      (by omega) hjl
    have hp2 : hParent j < (hSwap a (hParent j) j).length := by
      rw [hSwap_length]
      omega
    exact (ih hp2).trans hswap
  | case3 a j hj hless =>
    intro _
    rw [hUp, dif_neg hj, if_neg hless]

theorem hUp_getD_gt (a : List (String × Int)) (j : Nat) (m : Nat) :
    j < m → (hUp a j).getD m ("", 0) = a.getD m ("", 0) := by
  induction a, j using hUp.induct with
  | case1 a =>
    intro _
    rw [hUp, dif_pos rfl]
  | case2 a j hj hless ih =>
    intro hm
    rw [hUp, dif_neg hj, if_pos hless]
    have hp : hParent j < j := hParent_lt hj
    rw [ih (by omega), hSwap_getD_out (by omega) (by omega)]
  | case3 a j hj hless =>
    intro _
    rw [hUp, dif_neg hj, if_neg hless]

theorem hDownGo_length (n : Nat) (a : List (String × Int)) (i : Nat) :
    (hDownGo n a i).1.length = a.length := by
  induction a, i using hDownGo.induct n with
  | case1 a i hlt hless ih =>
    rw [hDownGo, dif_pos hlt, if_pos hless]
    rw [ih, hSwap_length]
  | case2 a i hlt hless =>
    rw [hDownGo, dif_pos hlt, if_neg hless]
  | case3 a i hge =>
    rw [hDownGo, dif_neg hge]

theorem hDownGo_perm (n : Nat) (a : List (String × Int)) (i : Nat) :
    n ≤ a.length → (hDownGo n a i).1.Perm a := by
  induction a, i using hDownGo.induct n with
  | case1 a i hlt hless ih =>
    intro hn
    rw [hDownGo, dif_pos hlt, if_pos hless]
    have hc1 : i < hChild n a i := hChild_gt n a i
    have hc2 : hChild n a i < n := hChild_lt hlt
    have hswap := hSwap_perm (a := a) (i := i) (j := hChild n a i)
      (by omega) (by omega)
    have hn2 : n ≤ (hSwap a i (hChild n a i)).length := by
      rw [hSwap_length]
      omega
    exact (ih hn2).trans hswap
  | case2 a i hlt hless =>
    intro _
    rw [hDownGo, dif_pos hlt, if_neg hless]
  | case3 a i hge =>
    intro _
    rw [hDownGo, dif_neg hge]

theorem hDownGo_getD_ge (n : Nat) (a : List (String × Int)) (i : Nat)
    (m : Nat) : n ≤ m →
    (hDownGo n a i).1.getD m ("", 0) = a.getD m ("", 0) := by
  induction a, i using hDownGo.induct n with
  | case1 a i hlt hless ih =>
    intro hm
    rw [hDownGo, dif_pos hlt, if_pos hless]
    have hc1 : i < hChild n a i := hChild_gt n a i
    have hc2 : hChild n a i < n := hChild_lt hlt
    rw [ih hm, hSwap_getD_out (by omega) (by omega)]
  | case2 a i hlt hless =>
    intro _
    rw [hDownGo, dif_pos hlt, if_neg hless]
  | case3 a i hge =>
    intro _
    rw [hDownGo, dif_neg hge]

theorem hDown_fst (a : List (String × Int)) (i n : Nat) :
    (hDown a i n).1 = (hDownGo n a i).1 := rfl

theorem hFix_perm {a : List (String × Int)} {i : Nat} (hi : i < a.length) :
    (hFix a i).Perm a := by
  simp only [hFix]
  split
  · rw [hDown_fst]
    exact hDownGo_perm _ _ _ le_rfl
  · rw [hDown_fst]
    have h2 : i < (hDownGo a.length a i).1.length := by
      rw [hDownGo_length]
      exact hi
    exact (hUp_perm _ _ h2).trans (hDownGo_perm _ _ _ le_rfl)

theorem hPush_perm (a : List (String × Int)) (x : String × Int) :
    (hPush a x).Perm (a ++ [x]) := by
  unfold hPush
  exact hUp_perm _ _ (by simp)

theorem hRemoveAt_perm {a : List (String × Int)} {i : Nat}
    (hi : i < a.length) :
    ((hRemoveAt a i) ++ [a.getD i ("", 0)]).Perm a := by
  unfold hRemoveAt
  by_cases hn : a.length - 1 = i
  · simp only [if_pos hn]
    have hne : a ≠ [] := List.ne_nil_of_length_pos (by omega)
    have hgl : a.getD i ("", 0) = a.getLast hne := by
      rw [List.getD_eq_getElem a _ hi, List.getLast_eq_getElem]
      congr 1
      omega
    rw [hgl]
    exact List.Perm.of_eq (List.dropLast_append_getLast hne)
  · simp only [if_neg hn]
    have hin : i < a.length - 1 := by omega
    have hnlen : a.length - 1 < a.length := by omega
    have ha1len : (hSwap a i (a.length - 1)).length = a.length :=
      hSwap_length a i (a.length - 1)
    have key : ∀ a2 : List (String × Int),
        a2.Perm (hSwap a i (a.length - 1)) → a2.length = a.length →
        a2.getD (a.length - 1) ("", 0) = a.getD i ("", 0) →
        ((a2.dropLast ++ [a.getD i ("", 0)]).Perm a) := by
      intro a2 hperm hlen hgd
      have ha2ne : a2 ≠ [] := List.ne_nil_of_length_pos (by omega)
      have hgl2 : a2.getLast ha2ne = a.getD i ("", 0) := by
        rw [List.getLast_eq_getElem, ← hgd,
          List.getD_eq_getElem a2 _ (by omega)]
        congr 1
        omega
      have hdecomp : a2.dropLast ++ [a.getD i ("", 0)] = a2 := by
        rw [← hgl2]
        exact List.dropLast_append_getLast ha2ne
      rw [hdecomp]
      exact hperm.trans (hSwap_perm hi hnlen)
    have hd1 : (hSwap a i (a.length - 1)).getD (a.length - 1) ("", 0) =
        a.getD i ("", 0) := by
      unfold hSwap hGetD
      exact getD_set_self _ _ (by simp; omega)
    split
    · apply key
      · rw [hDown_fst]
        exact hDownGo_perm _ _ _ (by omega)
      · rw [hDown_fst, hDownGo_length, ha1len]
      · rw [hDown_fst, hDownGo_getD_ge _ _ _ _ le_rfl, hd1]
    · apply key
      · rw [hDown_fst]
        have h2 : i < (hDownGo (a.length - 1) (hSwap a i (a.length - 1)) i).1.length := by
          rw [hDownGo_length]
          omega
        exact (hUp_perm _ _ h2).trans (hDownGo_perm _ _ _ (by omega))
      · rw [hDown_fst, hUp_length, hDownGo_length, ha1len]
      · rw [hDown_fst, hUp_getD_gt _ _ _ (by omega),
          hDownGo_getD_ge _ _ _ _ le_rfl, hd1]

/-! ### Search-index lemmas. -/

theorem findIdxA_eq_none_iff {α : Type} {p : α → Bool} {l : List α} :
    findIdxA p l = none ↔ ∀ x ∈ l, ¬ p x = true := by
  induction l with
  | nil => simp [findIdxA]
  | cons x t ih =>
    by_cases h : p x
    · simp [findIdxA, h]
    · simp [findIdxA, h, Option.map_eq_none', ih]

theorem findIdxA_some {α : Type} (d : α) {p : α → Bool} {l : List α} {i : Nat}
    (h : findIdxA p l = some i) : i < l.length ∧ p (l.getD i d) = true := by
  induction l generalizing i with
  | nil => simp [findIdxA] at h
  | cons x t ih =>
    by_cases hx : p x
    · simp only [findIdxA, if_pos hx, Option.some.injEq] at h
      subst h
      simpa using hx
    · simp only [findIdxA, if_neg hx, Option.map_eq_some'] at h
      obtain ⟨j, hj, hji⟩ := h
      subst hji
      have := ih hj
      simp only [List.length_cons, List.getD_cons_succ]
      exact ⟨by omega, this.2⟩

theorem getD_map_fst (l : List (String × Int)) (i : Nat) :
    ((l.map Prod.fst).getD i "") = (l.getD i ("", 0)).1 := by
  induction l generalizing i with
  | nil => simp
  | cons e t ih =>
    cases i with
    | zero => simp
    | succ n => simpa using ih n

/-! ### Tracked-key behaviour of the LFU heap operations. -/

theorem lfu_bump_perm {a : List (String × Int)} {k : String} {i : Nat}
    (hidx : lfuFindIdx a k = some i) :
    ((hFix (a.set i (k, (hGetD a i).2 + 1)) i).map Prod.fst).Perm
      (a.map Prod.fst) := by
  have hidx2 : findIdxA (fun e => decide (e.1 = k)) a = some i := by
    simpa [lfuFindIdx] using hidx
  obtain ⟨hlt, hp⟩ := findIdxA_some ("", 0) hidx2
  have hkey : (a.getD i ("", 0)).1 = k := by simpa using hp
  have hfix := hFix_perm (a := a.set i (k, (hGetD a i).2 + 1)) (i := i)
    (by simpa using hlt)
  refine (hfix.map Prod.fst).trans ?_
  rw [List.map_set]
  have hval : ((k, (hGetD a i).2 + 1) : String × Int).1 = k := rfl
  rw [hval]
  have hat : (a.map Prod.fst).getD i "" = k := by
    rw [getD_map_fst]
    exact hkey
  rw [← hat]
  exact List.Perm.of_eq (set_getD_self _ _ (by simpa using hlt))

theorem lfu_keys_onAccess (a : List (String × Int)) (k : String) :
    ((lfuOnAccess a k).map Prod.fst).Perm (a.map Prod.fst) := by
  unfold lfuOnAccess
  cases hidx : lfuFindIdx a k with
  | none => exact .refl _
  | some i => exact lfu_bump_perm hidx

theorem mem_map_fst_of_findIdxA_some {a : List (String × Int)} {k : String}
    {i : Nat} (hidx : lfuFindIdx a k = some i) : k ∈ a.map Prod.fst := by
  have hidx2 : findIdxA (fun e => decide (e.1 = k)) a = some i := by
    simpa [lfuFindIdx] using hidx
  obtain ⟨hlt, hp⟩ := findIdxA_some ("", 0) hidx2
  have hkey : (a.getD i ("", 0)).1 = k := by simpa using hp
  rw [← hkey, ← getD_map_fst, List.getD_eq_getElem _ "" (by simpa using hlt)]
  exact List.getElem_mem _

theorem lfuFindIdx_eq_none {a : List (String × Int)} {k : String}
    (h : k ∉ a.map Prod.fst) : lfuFindIdx a k = none := by
  rw [lfuFindIdx, findIdxA_eq_none_iff]
  intro e he
  simp only [decide_eq_true_eq]
  intro hk
  exact h (hk ▸ List.mem_map_of_mem Prod.fst he)

theorem lfu_keys_onAdd_mem {a : List (String × Int)} {k : String}
    (h : k ∈ a.map Prod.fst) :
    ((lfuOnAdd a k).map Prod.fst).Perm (a.map Prod.fst) := by
  unfold lfuOnAdd
  cases hidx : lfuFindIdx a k with
  | none =>
    exfalso
    rcases List.mem_map.mp h with ⟨e, he, hek⟩
    have := findIdxA_eq_none_iff.mp (by simpa [lfuFindIdx] using hidx) e he
    simp [hek] at this
  | some i => exact lfu_bump_perm hidx

theorem lfu_keys_onAdd_notmem {a : List (String × Int)} {k : String}
    (h : k ∉ a.map Prod.fst) :
    ((lfuOnAdd a k).map Prod.fst).Perm (k :: a.map Prod.fst) := by
  unfold lfuOnAdd
  rw [lfuFindIdx_eq_none h]
  refine ((hPush_perm a (k, 1)).map Prod.fst).trans ?_
  rw [List.map_append]
  simpa using List.perm_append_singleton k (a.map Prod.fst)

theorem lfu_keys_onRemove {a : List (String × Int)} {k : String}
    (hnd : (a.map Prod.fst).Nodup) :
    ((lfuOnRemove a k).map Prod.fst).Perm ((a.map Prod.fst).erase k) := by
  unfold lfuOnRemove
  cases hidx : lfuFindIdx a k with
  | none =>
    have hk : k ∉ a.map Prod.fst := by
      intro hmem
      rcases List.mem_map.mp hmem with ⟨e, he, hek⟩
      have := findIdxA_eq_none_iff.mp (by simpa [lfuFindIdx] using hidx) e he
      simp [hek] at this
    rw [List.erase_of_not_mem hk]
  | some i =>
    have hidx2 : findIdxA (fun e => decide (e.1 = k)) a = some i := by
      simpa [lfuFindIdx] using hidx
    obtain ⟨hlt, hp⟩ := findIdxA_some ("", 0) hidx2
    have hkey : (a.getD i ("", 0)).1 = k := by simpa using hp
    have hperm := hRemoveAt_perm (a := a) (i := i) hlt
    have hm := hperm.map Prod.fst
    rw [List.map_append] at hm
    simp only [List.map_cons, List.map_nil] at hm
    rw [hkey] at hm
    exact append_singleton_perm_erase hnd hm

/-! ### Tracked-key behaviour of each policy. -/

theorem PState.tracked_onAccess (p : PState) (k : String) :
    ((p.onAccess k).tracked).Perm p.tracked := by
  cases p with
  | lruS l =>
    simp only [PState.onAccess, PState.tracked, lruOnAccess]
    split
    · next h => exact (List.perm_cons_erase h).symm
    · exact .refl _
  | fifoS l => exact .refl _
  | lfuS a => exact lfu_keys_onAccess a k
  | randS l => exact .refl _

theorem PState.tracked_onAdd_fresh {p : PState} {k : String}
    (h : k ∉ p.tracked) : ((p.onAdd k).tracked).Perm (k :: p.tracked) := by
  cases p with
  | lruS l =>
    simp only [PState.onAdd, PState.tracked, lruOnAdd] at *
    rw [if_neg h]
  | fifoS l =>
    simp only [PState.onAdd, PState.tracked, fifoOnAdd] at *
    rw [if_neg h]
    exact List.perm_append_singleton k l
  | lfuS a => exact lfu_keys_onAdd_notmem h
  | randS l =>
    simp only [PState.onAdd, PState.tracked, randOnAdd]
    exact List.perm_append_singleton k l

theorem PState.tracked_onAdd_mem {p : PState} {k : String}
    (h : k ∈ p.tracked) (hnr : p.isRandB = false) :
    ((p.onAdd k).tracked).Perm p.tracked := by
  cases p with
  | lruS l =>
    simp only [PState.onAdd, PState.tracked, lruOnAdd] at *
    rw [if_pos h]
    exact (List.perm_cons_erase h).symm
  | fifoS l =>
    simp only [PState.onAdd, PState.tracked, fifoOnAdd] at *
    rw [if_pos h]
  | lfuS a => exact lfu_keys_onAdd_mem h
  | randS l => simp [PState.isRandB] at hnr

theorem PState.tracked_onRemove {p : PState} {k : String}
    (hnd : p.tracked.Nodup) :
    ((p.onRemove k).tracked).Perm (p.tracked.erase k) := by
  cases p with
  | lruS l => exact .refl _
  | fifoS l => exact .refl _
  | lfuS a => exact lfu_keys_onRemove hnd
  | randS l =>
    simp only [PState.onRemove, PState.tracked, randOnRemove] at *
    cases hidx : findIdxA (fun x => x = k) l with
    | none =>
      have hk : k ∉ l := by
        intro hmem
        have := findIdxA_eq_none_iff.mp hidx k hmem
        simp at this
      rw [List.erase_of_not_mem hk]
    | some i =>
      obtain ⟨hlt, hp⟩ := findIdxA_some "" hidx
      have hkey : l.getD i "" = k := by simpa using hp
      have hperm := removeAt_swapLast_perm (d := "") l i hlt
      apply append_singleton_perm_erase hnd
      rwa [hkey] at hperm

theorem PState.victim_tracked (p : PState) (rnd : Nat) :
    p.victim rnd ∈ p.tracked ∨ (p.victim rnd = "" ∧ p.tracked = []) := by
  cases p with
  | lruS l =>
    cases l with
    | nil => exact Or.inr ⟨rfl, rfl⟩
    | cons x t =>
      left
      simp only [PState.victim, PState.tracked, lruVictim]
      have hne : x :: t ≠ [] := by simp
      rw [List.getLast?_eq_getLast _ hne, Option.getD_some]
      exact List.getLast_mem hne
  | fifoS l =>
    cases l with
    | nil => exact Or.inr ⟨rfl, rfl⟩
    | cons x t =>
      left
      simp [PState.victim, PState.tracked, fifoVictim]
  | lfuS a =>
    cases a with
    | nil => exact Or.inr ⟨rfl, rfl⟩
    | cons e t =>
      left
      simp [PState.victim, PState.tracked, lfuVictim]
  | randS l =>
    by_cases he : l.isEmpty
    · right
      have : l = [] := by simpa using he
      subst this
      exact ⟨rfl, rfl⟩
    · left
      simp only [PState.victim, PState.tracked, randVictim, if_neg he]
      have hlen : 0 < l.length := by
        cases l with
        | nil => simp at he
        | cons x t => simp
      have hmod : rnd % l.length < l.length := Nat.mod_lt _ hlen
      rw [List.getD_eq_getElem l "" hmod]
      exact List.getElem_mem _

theorem PState.isRandB_stepOp (p : PState) (op : POp) :
    (p.stepOp op).isRandB = p.isRandB := by
  cases p <;> cases op <;> rfl

/-! ### The policy run invariant and Claim C5. -/

theorem runOps_tracked (ops : List POp) (p : PState) (t : Finset String)
    (hnd : p.tracked.Nodup) (ht : ∀ x, x ∈ p.tracked ↔ x ∈ t)
    (hfr : p.isRandB = true → freshAdds t ops = true) :
    (p.runOps ops).tracked.Nodup ∧
      ∀ x, x ∈ (p.runOps ops).tracked ↔ x ∈ specTracked t ops := by
  induction ops generalizing p t with
  | nil => exact ⟨hnd, ht⟩
  | cons op r ih =>
    cases op with
    | acc k =>
      have hperm := PState.tracked_onAccess p k
      refine ih (p.onAccess k) t (hnd.perm hperm.symm)
        (fun x => (hperm.mem_iff).trans (ht x)) ?_
      intro hr
      rw [show (p.onAccess k) = p.stepOp (.acc k) from rfl,
        PState.isRandB_stepOp] at hr
      exact hfr hr
    | add k =>
      by_cases hk : k ∈ p.tracked
      · have hkt : k ∈ t := (ht k).mp hk
        by_cases hrand : p.isRandB = true
        · exfalso
          have := hfr hrand
          simp [freshAdds, hkt] at this
        · have hperm := PState.tracked_onAdd_mem hk
            (by simpa using hrand)
          refine ih (p.onAdd k) (insert k t) (hnd.perm hperm.symm) ?_ ?_
          · intro x
            rw [hperm.mem_iff, ht x, Finset.mem_insert]
            constructor
            · exact Or.inr
            · rintro (rfl | hx)
              · exact hkt
              · exact hx
          · intro hr
            exfalso
            rw [show (p.onAdd k) = p.stepOp (.add k) from rfl,
              PState.isRandB_stepOp] at hr
            exact hrand hr
      · have hperm := PState.tracked_onAdd_fresh hk
        refine ih (p.onAdd k) (insert k t) ?_ ?_ ?_
        · refine List.Nodup.perm ?_ hperm.symm
          exact List.nodup_cons.mpr ⟨hk, hnd⟩
        · intro x
          rw [hperm.mem_iff, List.mem_cons, Finset.mem_insert, ht x]
        · intro hr
          rw [show (p.onAdd k) = p.stepOp (.add k) from rfl,
            PState.isRandB_stepOp] at hr
          have := hfr hr
          simp only [freshAdds, Bool.and_eq_true] at this
          exact this.2
    | rem k =>
      have hperm := PState.tracked_onRemove (k := k) hnd
      refine ih (p.onRemove k) (t.erase k) ?_ ?_ ?_
      · exact (hnd.erase k).perm hperm.symm
      · intro x
        rw [hperm.mem_iff, hnd.mem_erase_iff, Finset.mem_erase, ht x]
      · intro hr
        rw [show (p.onRemove k) = p.stepOp (.rem k) from rfl,
          PState.isRandB_stepOp] at hr
        exact hfr hr

/-- Claim C5 as stated is false for the Random policy: `on_add` appends
unconditionally, so after `on_add(a)`, `on_add(a)` (which the contract
says must act as `on_access`), `on_remove(a)`, the slice still holds one
copy of `a`; `select_victim` then returns `a` although no key is
currently tracked in the claim's sense (`a` was removed after its last
add and not re-added). -/
theorem select_victim_random_counterexample :
    (PKind.random.init.runOps [POp.add "a", POp.add "a", POp.rem "a"]).victim 0
        = "a" ∧
    specTracked ∅ [POp.add "a", POp.add "a", POp.rem "a"] = ∅ ∧
    (PKind.random.init.runOps [POp.add "a", POp.add "a", POp.rem "a"])
        = PState.randS ["a"] := by
  refine ⟨rfl, by decide, rfl⟩

/-- Claim C5, amended: for LRU, FIFO and LFU over every finite call
sequence, and for Random over sequences that never call `on_add` on an
already-tracked key, `select_victim` returns a key that is currently
tracked (added and not since removed), or none (`""`) when no key is
tracked; in particular after `on_remove(k)` the key `k` is not returned
unless re-added. -/
theorem select_victim_contract (kind : PKind) (ops : List POp) (rnd : Nat)
    (hfresh : kind = PKind.random → freshAdds ∅ ops = true) :
    ((kind.init.runOps ops).victim rnd ∈ specTracked ∅ ops) ∨
      ((kind.init.runOps ops).victim rnd = "" ∧ specTracked ∅ ops = ∅) := by
  have hinit1 : (PKind.init kind).tracked.Nodup := by
    cases kind <;> simp [PKind.init, PState.tracked]
  have hinit2 : ∀ x, x ∈ (PKind.init kind).tracked ↔ x ∈ (∅ : Finset String) := by
    cases kind <;> simp [PKind.init, PState.tracked]
  have hinit3 : (PKind.init kind).isRandB = true → freshAdds ∅ ops = true := by
    intro hr
    apply hfresh
    cases kind <;> simp [PKind.init, PState.isRandB] at hr ⊢
  have hinv := runOps_tracked ops kind.init ∅ hinit1 hinit2 hinit3
  rcases PState.victim_tracked (kind.init.runOps ops) rnd with hv | ⟨hv, hemp⟩
  · exact Or.inl ((hinv.2 _).mp hv)
  · refine Or.inr ⟨hv, ?_⟩
    rw [Finset.eq_empty_iff_forall_not_mem]
    intro x hx
    have := (hinv.2 x).mpr hx
    rw [hemp] at this
    simp at this

/-- Witness for the amended C5 at a concrete LRU run. -/
theorem select_victim_contract_witness :
    ((PKind.lru.init.runOps [POp.add "a", POp.rem "a", POp.add "b"]).victim 0
        ∈ specTracked ∅ [POp.add "a", POp.rem "a", POp.add "b"]) ∨
      ((PKind.lru.init.runOps [POp.add "a", POp.rem "a", POp.add "b"]).victim 0 = ""
        ∧ specTracked ∅ [POp.add "a", POp.rem "a", POp.add "b"] = ∅) :=
  select_victim_contract PKind.lru [POp.add "a", POp.rem "a", POp.add "b"] 0
    (by decide)

/-! ### Store invariant preservation. -/

theorem deleteInternal_capacity (s : Store) (k : String) :
    (s.deleteInternal k).capacity = s.capacity := by
  unfold Store.deleteInternal
  split <;> rfl

theorem deleteInternal_isSome (s : Store) (k : String) :
    (s.deleteInternal k).policy.isSome = s.policy.isSome := by
  unfold Store.deleteInternal
  split <;> simp

theorem deleteInternal_inv {s : Store} (h : s.inv) (k : String) :
    (s.deleteInternal k).inv := by
  unfold Store.deleteInternal
  split
  · obtain ⟨hnd, hpol⟩ := h
    refine ⟨nodup_keysA_eraseA hnd, ?_⟩
    intro p hp
    simp only [Option.map_eq_some'] at hp
    obtain ⟨q, hq, hpq⟩ := hp
    obtain ⟨qnd, qmem⟩ := hpol q hq
    subst hpq
    have hperm := PState.tracked_onRemove (k := k) qnd
    refine ⟨(qnd.erase k).perm hperm.symm, ?_⟩
    intro x
    rw [hperm.mem_iff, qnd.mem_erase_iff, mem_keysA_eraseA hnd, qmem x]
    tauto
  · exact h

theorem deleteInternal_keys_sub {s : Store} (hnd : (keysA s.items).Nodup)
    {k x : String} (h : x ∈ keysA (s.deleteInternal k).items) :
    x ∈ keysA s.items := by
  unfold Store.deleteInternal at h
  split at h
  · exact ((mem_keysA_eraseA hnd).mp h).1
  · exact h

theorem deleteInternal_len_le (s : Store) (k : String) :
    (s.deleteInternal k).items.length ≤ s.items.length := by
  unfold Store.deleteInternal
  split
  · next hs =>
    have := length_eraseA_isSome (l := s.items) (k := k) hs
    simp only []
    omega
  · exact le_rfl

theorem deleteInternal_len {s : Store} {k : String}
    (h : (lookupA k s.items).isSome) :
    (s.deleteInternal k).items.length + 1 = s.items.length := by
  unfold Store.deleteInternal
  rw [if_pos h]
  exact length_eraseA_isSome h

theorem GetAt_bundle {s : Store} (h : s.inv) (now : Int) (key : String) :
    ((s.GetAt now key).2).inv ∧ (s.GetAt now key).2.capacity = s.capacity ∧
      (s.GetAt now key).2.policy.isSome = s.policy.isSome ∧
      (s.GetAt now key).2.items = s.items := by
  unfold Store.GetAt
  cases lookupA key s.items with
  | none => exact ⟨h, rfl, rfl, rfl⟩
  | some it =>
    by_cases hexp : it.expiredAt now = true
    · simp only [if_pos hexp]
      exact ⟨h, trivial, trivial, trivial⟩
    · simp only [if_neg hexp]
      refine ⟨⟨h.1, ?_⟩, trivial, by simp, trivial⟩
      intro p hp
      simp only [Option.map_eq_some'] at hp
      obtain ⟨q, hq, hpq⟩ := hp
      obtain ⟨qnd, qmem⟩ := h.2 q hq
      subst hpq
      have hperm := PState.tracked_onAccess q key
      exact ⟨qnd.perm hperm.symm, fun x => (hperm.mem_iff).trans (qmem x)⟩

theorem maybeEvict_bundle {s : Store} (h : s.inv) (rnd : Nat) :
    (s.maybeEvict rnd).inv ∧ (s.maybeEvict rnd).capacity = s.capacity ∧
      (s.maybeEvict rnd).policy.isSome = s.policy.isSome ∧
      (s.maybeEvict rnd).items.length ≤ s.items.length ∧
      (∀ x, x ∈ keysA (s.maybeEvict rnd).items → x ∈ keysA s.items) := by
  unfold Store.maybeEvict
  by_cases hfull : 0 < s.capacity ∧ s.capacity ≤ s.items.length
  · simp only [if_pos hfull]
    cases hp : s.policy with
    | none =>
      simp only [hp]
      exact ⟨h, trivial, trivial, le_rfl, fun _ => id⟩
    | some p =>
      simp only [hp]
      by_cases hv : p.victim rnd ≠ ""
      · simp only [if_pos hv]
        exact ⟨deleteInternal_inv h _, deleteInternal_capacity s _,
          (deleteInternal_isSome s _).trans (by rw [hp]),
          deleteInternal_len_le s _,
          fun x => deleteInternal_keys_sub h.1⟩
      · simp only [if_neg hv]
        exact ⟨h, trivial, by rw [hp], le_rfl, fun _ => id⟩
  · simp only [if_neg hfull]
    exact ⟨h, trivial, trivial, le_rfl, fun _ => id⟩

theorem SetAt_bundle {s : Store} (h : s.inv) (rnd : Nat) (now : Int)
    (k v : String) (ttl : Int) :
    (s.SetAt rnd now k v ttl).inv ∧
      (s.SetAt rnd now k v ttl).capacity = s.capacity ∧
      (s.SetAt rnd now k v ttl).policy.isSome = s.policy.isSome := by
  unfold Store.SetAt
  by_cases hex : (lookupA k s.items).isSome
  · simp only [if_pos hex]
    refine ⟨⟨nodup_keysA_insertA h.1, ?_⟩, trivial, by simp⟩
    intro p hp
    simp only [Option.map_eq_some'] at hp
    obtain ⟨q, hq, hpq⟩ := hp
    obtain ⟨qnd, qmem⟩ := h.2 q hq
    subst hpq
    have hperm := PState.tracked_onAccess q k
    refine ⟨qnd.perm hperm.symm, ?_⟩
    intro x
    rw [hperm.mem_iff, qmem x, mem_keysA_insertA]
    have hkmem : k ∈ keysA s.items := mem_keysA_iff_isSome.mpr hex
    constructor
    · exact Or.inr
    · rintro (rfl | hx)
      · exact hkmem
      · exact hx
  · simp only [if_neg hex]
    obtain ⟨hinv2, hcap2, hsome2, _hlen2, hsub2⟩ := maybeEvict_bundle h rnd
    have hknot : k ∉ keysA (s.maybeEvict rnd).items := by
      intro hmem
      exact hex (mem_keysA_iff_isSome.mp (hsub2 k hmem))
    refine ⟨⟨nodup_keysA_insertA hinv2.1, ?_⟩, by simpa using hcap2,
      by simpa using hsome2⟩
    intro p hp
    simp only [Option.map_eq_some'] at hp
    obtain ⟨q, hq, hpq⟩ := hp
    obtain ⟨qnd, qmem⟩ := hinv2.2 q hq
    subst hpq
    have hkq : k ∉ q.tracked := fun hmem => hknot ((qmem k).mp hmem)
    have hperm := PState.tracked_onAdd_fresh hkq
    refine ⟨List.Nodup.perm (List.nodup_cons.mpr ⟨hkq, qnd⟩) hperm.symm, ?_⟩
    intro x
    rw [hperm.mem_iff, List.mem_cons, mem_keysA_insertA, qmem x]

theorem SetAt_capInv {C : Nat} {s : Store} (h : s.capInv C) (hC : 0 < C)
    {k : String} (hk : k ≠ "") (rnd : Nat) (now : Int) (v : String)
    (ttl : Int) : (s.SetAt rnd now k v ttl).capInv C := by
  obtain ⟨hinv, hcap, hsome, hnoempty, hlen⟩ := h
  obtain ⟨hinv3, hcap3, hsome3⟩ := SetAt_bundle hinv rnd now k v ttl
  refine ⟨hinv3, hcap3.trans hcap, by rw [hsome3]; exact hsome, ?_, ?_⟩
  · -- no empty-string key afterwards
    intro hmem
    unfold Store.SetAt at hmem
    by_cases hex : (lookupA k s.items).isSome
    · simp only [if_pos hex] at hmem
      rcases mem_keysA_insertA.mp hmem with hke | hmem2
      · exact hk hke.symm
      · exact hnoempty hmem2
    · simp only [if_neg hex] at hmem
      rcases mem_keysA_insertA.mp hmem with hke | hmem2
      · exact hk hke.symm
      · exact hnoempty ((maybeEvict_bundle hinv rnd).2.2.2.2 _ hmem2)
  · -- the capacity bound
    unfold Store.SetAt
    by_cases hex : (lookupA k s.items).isSome
    · simp only [if_pos hex]
      have := length_insertA k
        (⟨v, if 0 < ttl then now + ttl else 0⟩ : Item) s.items
      rw [this, if_pos hex]
      exact hlen
    · simp only [if_neg hex]
      have hkn2 : ¬ (lookupA k (s.maybeEvict rnd).items).isSome = true := by
        intro hs
        exact hex (mem_keysA_iff_isSome.mp
          ((maybeEvict_bundle hinv rnd).2.2.2.2 k (mem_keysA_iff_isSome.mpr hs)))
      have hlenins := length_insertA k
        (⟨v, if 0 < ttl then now + ttl else 0⟩ : Item) ((s.maybeEvict rnd).items)
      rw [hlenins, if_neg hkn2]
      -- it suffices that the evicted store has length < C
      by_cases hfull : 0 < s.capacity ∧ s.capacity ≤ s.items.length
      · -- at capacity: a victim is found and deleted
        obtain ⟨p, hp⟩ := Option.isSome_iff_exists.mp hsome
        have hlenfull : s.items.length = C := by omega
        have hkeysne : s.items.length ≠ 0 := by omega
        have htrackne : p.tracked ≠ [] := by
          intro hempty
          cases hl : s.items with
          | nil => exact hkeysne (by simp [hl])
          | cons e t =>
            have : e.1 ∈ keysA s.items := by simp [hl, keysA]
            have := ((hinv.2 p hp).2 e.1).mpr this
            rw [hempty] at this
            simp at this
        have hvm : p.victim rnd ∈ p.tracked := by
          rcases PState.victim_tracked p rnd with hv | ⟨_, hemp⟩
          · exact hv
          · exact absurd hemp htrackne
        have hvkeys : p.victim rnd ∈ keysA s.items := ((hinv.2 p hp).2 _).mp hvm
        have hvne : p.victim rnd ≠ "" := by
          intro he
          exact hnoempty (he ▸ hvkeys)
        have hvd : (lookupA (p.victim rnd) s.items).isSome :=
          mem_keysA_iff_isSome.mp hvkeys
        unfold Store.maybeEvict
        rw [if_pos hfull, hp]
        simp only [if_pos hvne]
        have := deleteInternal_len (s := s) (k := p.victim rnd) hvd
        omega
      · -- below capacity
        have hlt : s.items.length < C := by
          rw [hcap] at hfull
          omega
        unfold Store.maybeEvict
        rw [if_neg hfull]
        omega

theorem applyOp_inv_basic {s : Store} {op : SOp} (hop : op.basic)
    (h : s.inv) : (s.applyOp op).inv := by
  cases op with
  | get now key => exact (GetAt_bundle h now key).1
  | set rnd now key value ttl => exact (SetAt_bundle h rnd now key value ttl).1
  | del key => exact deleteInternal_inv h key
  | sweep now => exact absurd hop (by simp [SOp.basic])
  | restore snap => exact absurd hop (by simp [SOp.basic])

theorem applyOp_capInv {C : Nat} {s : Store} {op : SOp} (hC : 0 < C)
    (hop : op.basicNonempty) (h : s.capInv C) : (s.applyOp op).capInv C := by
  obtain ⟨hinv, hcap, hsome, hnoempty, hlen⟩ := h
  cases op with
  | get now key =>
    obtain ⟨h1, h2, h3, h4⟩ := GetAt_bundle hinv now key
    simp only [Store.applyOp]
    exact ⟨h1, h2.trans hcap, by rw [h3]; exact hsome, by rw [h4]; exact hnoempty,
      by rw [h4]; exact hlen⟩
  | set rnd now key value ttl =>
    exact SetAt_capInv ⟨hinv, hcap, hsome, hnoempty, hlen⟩ hC hop rnd now value ttl
  | del key =>
    simp only [Store.applyOp, Store.Delete]
    refine ⟨deleteInternal_inv hinv key, (deleteInternal_capacity s key).trans hcap,
      by rw [deleteInternal_isSome]; exact hsome, ?_, ?_⟩
    · intro hmem
      exact hnoempty (deleteInternal_keys_sub hinv.1 hmem)
    · exact le_trans (deleteInternal_len_le s key) hlen
  | sweep now => exact absurd hop (by simp [SOp.basicNonempty])
  | restore snap => exact absurd hop (by simp [SOp.basicNonempty])

theorem run_inv {s : Store} {ops : List SOp}
    (hops : ∀ op ∈ ops, op.basic) (h : s.inv) : (s.run ops).inv := by
  induction ops generalizing s with
  | nil => exact h
  | cons op r ih =>
    exact ih (fun o ho => hops o (List.mem_cons_of_mem op ho))
      (applyOp_inv_basic (hops op (List.mem_cons_self op r)) h)

theorem run_capInv {C : Nat} {s : Store} {ops : List SOp} (hC : 0 < C)
    (hops : ∀ op ∈ ops, op.basicNonempty) (h : s.capInv C) :
    (s.run ops).capInv C := by
  induction ops generalizing s with
  | nil => exact h
  | cons op r ih =>
    exact ih (fun o ho => hops o (List.mem_cons_of_mem op ho))
      (applyOp_capInv hC (hops op (List.mem_cons_self op r)) h)

theorem init_inv (cap : Nat) (kind : PKind) :
    (Store.new cap (some kind.init)).inv := by
  refine ⟨by simp [Store.new, keysA], ?_⟩
  intro p hp
  simp only [Store.new, Option.some.injEq] at hp
  subst hp
  cases kind <;>
    simp [PKind.init, PState.tracked, Store.new, keysA]

/-! ### Claim C2: the capacity bound. -/

/-- Claim C2 as stated is false on the code in two ways.  `Restore`
performs no capacity enforcement: restoring a two-item snapshot into a
capacity-1 store leaves two resident items.  And `Set` skips eviction
whenever the selected victim is the empty string, which is a legitimate
key: with capacity 1, `Set("", …)` then `Set("k", …)` leaves two
resident items. -/
theorem capacity_bound_counterexample :
    ((Store.new 1 (some PKind.lru.init)).run
        [SOp.restore [("a", ⟨"1", 0⟩), ("b", ⟨"2", 0⟩)]]).items.length = 2 ∧
    ((Store.new 1 (some PKind.lru.init)).run
        [SOp.set 0 0 "" "v" 0, SOp.set 0 0 "k" "w" 0]).items.length = 2 ∧
    ¬(2 ≤ 1) := by
  exact ⟨by decide, by decide, by decide⟩

/-- Claim C2, amended: for every store built with capacity C > 0 and an
eviction policy, after any completed sequence of Set, Get and Delete
operations in which every Set key is nonempty (and with no Restore), the
number of resident items never exceeds C. -/
theorem capacity_bound (C : Nat) (kind : PKind) (ops : List SOp)
    (hC : 0 < C) (hops : ∀ op ∈ ops, op.basicNonempty) :
    ((Store.new C (some kind.init)).run ops).items.length ≤ C := by
  have h0 : (Store.new C (some kind.init)).capInv C := by
    refine ⟨init_inv C kind, rfl, rfl, ?_, ?_⟩
    · simp [Store.new, keysA]
    · simp [Store.new]
  exact (run_capInv hC hops h0).2.2.2.2

/-- Witness for the amended C2: a capacity-1 LRU store across an
overflowing workload keeps one resident item. -/
theorem capacity_bound_witness :
    ((Store.new 1 (some PKind.lru.init)).run
        [SOp.set 0 0 "k1" "a" 0, SOp.set 1 0 "k2" "b" 0,
         SOp.get 0 "k2", SOp.set 2 0 "k3" "c" 0,
         SOp.del "k2"]).items.length ≤ 1 :=
  capacity_bound 1 PKind.lru
    [SOp.set 0 0 "k1" "a" 0, SOp.set 1 0 "k2" "b" 0,
     SOp.get 0 "k2", SOp.set 2 0 "k3" "c" 0, SOp.del "k2"]
    (by decide) (by decide)

/-! ### Claim C3: policy-storage consistency. -/

/-- Claim C3 as stated is false on the code: the expiration sweep
`deleteExpired` removes expired items without notifying the policy, and
`Restore` merges decoded items without updating the policy, so in both
cases the tracked-key set and the resident-key set diverge. -/
theorem policy_consistency_counterexample :
    (((Store.new 0 (some PKind.lru.init)).run
        [SOp.set 0 0 "a" "x" 1, SOp.sweep 5]).policy
          = some (PState.lruS ["a"]) ∧
      ((Store.new 0 (some PKind.lru.init)).run
        [SOp.set 0 0 "a" "x" 1, SOp.sweep 5]).items = []) ∧
    (((Store.new 0 (some PKind.lru.init)).run
        [SOp.set 0 0 "a" "x" 0, SOp.restore [("b", ⟨"y", 0⟩)]]).policy
          = some (PState.lruS ["a"]) ∧
      "b" ∈ keysA ((Store.new 0 (some PKind.lru.init)).run
        [SOp.set 0 0 "a" "x" 0, SOp.restore [("b", ⟨"y", 0⟩)]]).items ∧
      "b" ∉ (PState.lruS ["a"]).tracked) := by
  exact ⟨⟨by decide, by decide⟩, ⟨by decide, by decide, by decide⟩⟩

/-- Claim C3, amended: Get, Set and Delete preserve the invariant that
the keys tracked by the eviction policy are exactly the store's resident
keys; after any sequence of those operations on a fresh store, with any
capacity and policy, the two key sets coincide.  The expiration sweep
`deleteExpired` and `Restore` do not preserve the invariant. -/
theorem policy_storage_consistent (cap : Nat) (kind : PKind) (ops : List SOp)
    (hops : ∀ op ∈ ops, op.basic) :
    ∀ p, ((Store.new cap (some kind.init)).run ops).policy = some p →
      ∀ x, (x ∈ p.tracked ↔
        x ∈ keysA ((Store.new cap (some kind.init)).run ops).items) := by
  intro p hp x
  exact ((run_inv hops (init_inv cap kind)).2 p hp).2 x

/-- Witness for the amended C3 on a concrete LRU history. -/
theorem policy_storage_consistent_witness :
    ("k2" ∈ (PState.lruS ["k2"]).tracked ↔
      "k2" ∈ keysA ((Store.new 2 (some PKind.lru.init)).run
        [SOp.set 0 0 "k1" "v" 0, SOp.set 0 0 "k2" "w" 0,
         SOp.del "k1"]).items) :=
  policy_storage_consistent 2 PKind.lru
    [SOp.set 0 0 "k1" "v" 0, SOp.set 0 0 "k2" "w" 0, SOp.del "k1"]
    (by decide) (PState.lruS ["k2"]) (by decide) "k2"

/-! ### Binary search and ring correctness. -/

theorem sGo_spec (f : Nat → Bool) (n : Nat)
    (hmono : ∀ a b, a ≤ b → b < n → f a = true → f b = true) :
    ∀ i j, i ≤ j → j ≤ n →
      (∀ k, k < i → f k = false) → (∀ k, j ≤ k → k < n → f k = true) →
      (i ≤ sGo f i j ∧ sGo f i j ≤ j ∧
        (∀ k, k < sGo f i j → f k = false) ∧
        (∀ k, sGo f i j ≤ k → k < n → f k = true)) := by
  intro i j
  induction i, j using sGo.induct f with
  | case1 i j hlt hf ih =>
    intro hij hjn hlow hhigh
    rw [sGo, dif_pos hlt, if_pos hf]
    have hm1 : (i + j) / 2 < j := by omega
    have hm2 : i ≤ (i + j) / 2 := by omega
    obtain ⟨h1, h2, h3, h4⟩ := ih hm2 (by omega) hlow
      (fun k hk hkn => hmono _ _ hk hkn hf)
    exact ⟨h1, by omega, h3, h4⟩
  | case2 i j hlt hf ih =>
    intro hij hjn hlow hhigh
    rw [sGo, dif_pos hlt, if_neg hf]
    have hm1 : (i + j) / 2 < j := by omega
    have hm2 : i ≤ (i + j) / 2 := by omega
    have hlow2 : ∀ k, k < (i + j) / 2 + 1 → f k = false := by
      intro k hk
      cases hfk : f k with
      | false => rfl
      | true =>
        exact absurd (hmono k ((i + j) / 2) (by omega) (by omega) hfk) hf
    obtain ⟨h1, h2, h3, h4⟩ := ih (by omega) hjn hlow2 hhigh
    exact ⟨by omega, h2, h3, h4⟩
  | case3 i j hge =>
    intro hij hjn hlow hhigh
    rw [sGo, dif_neg hge]
    have hieq : i = j := by omega
    exact ⟨le_rfl, by omega, hlow, fun k hk hkn => hhigh k (by omega) hkn⟩

theorem sortSearch_spec (f : Nat → Bool) (n : Nat)
    (hmono : ∀ a b, a ≤ b → b < n → f a = true → f b = true) :
    sortSearch n f ≤ n ∧
      (∀ k, k < sortSearch n f → f k = false) ∧
      (∀ k, sortSearch n f ≤ k → k < n → f k = true) := by
  obtain ⟨_, h2, h3, h4⟩ := sGo_spec f n hmono 0 n (by omega) le_rfl
    (by omega) (by omega)
  exact ⟨h2, h3, h4⟩

theorem sorted_getD_mono {l : List Nat} (hs : l.Sorted (· ≤ ·)) {i j : Nat}
    (hij : i ≤ j) (hj : j < l.length) : l.getD i 0 ≤ l.getD j 0 := by
  rcases Nat.lt_or_ge i j with hlt | hge
  · have hi : i < l.length := by omega
    rw [List.getD_eq_getElem l 0 hi, List.getD_eq_getElem l 0 hj]
    exact List.Sorted.rel_get_of_lt hs (a := ⟨i, hi⟩) (b := ⟨j, hj⟩)
      (by simpa using hlt)
  · have hieq : i = j := by omega
    subst hieq
    rfl

theorem find?_eq_some_of_first (p : Nat → Bool) (l : List Nat) (r : Nat)
    (hr : r < l.length) (hlow : ∀ k, k < r → p (l.getD k 0) = false)
    (hp : p (l.getD r 0) = true) :
    l.find? p = some (l.getD r 0) := by
  induction l generalizing r with
  | nil => simp at hr
  | cons x t ih =>
    cases r with
    | zero =>
      simp only [List.getD_cons_zero] at hp ⊢
      simp [List.find?_cons, hp]
    | succ rr =>
      have h0 : p x = false := by simpa using hlow 0 (by omega)
      simp only [List.getD_cons_succ] at hp ⊢
      rw [List.find?_cons]
      simp only [h0]
      exact ih rr (by simpa using hr)
        (fun k hk => by simpa using hlow (k + 1) (by omega)) hp

theorem find?_eq_none_of_all (p : Nat → Bool) (l : List Nat)
    (h : ∀ k, k < l.length → p (l.getD k 0) = false) :
    l.find? p = none := by
  rw [List.find?_eq_none]
  intro x hx
  obtain ⟨k, hk, hxk⟩ := List.mem_iff_getElem.mp hx
  have := h k hk
  rw [List.getD_eq_getElem l 0 hk, hxk] at this
  simp [this]

theorem foldl_min_of_le (l : List Nat) :
    ∀ acc, (∀ y ∈ l, acc ≤ y) → l.foldl min acc = acc := by
  induction l with
  | nil =>
    intro acc _
    rfl
  | cons y ys ih =>
    intro acc hacc
    simp only [List.foldl_cons]
    rw [min_eq_left (hacc y (by simp))]
    exact ih acc (fun z hz => hacc z (by simp [hz]))

theorem minNat_sorted {l : List Nat} (hs : l.Sorted (· ≤ ·)) (hne : l ≠ []) :
    minNat l = some (l.getD 0 0) := by
  cases l with
  | nil => exact absurd rfl hne
  | cons x xs =>
    simp only [minNat, List.getD_cons_zero, Option.some.injEq]
    exact foldl_min_of_le xs x (fun y hy => (List.sorted_cons.mp hs).1 y hy)

theorem ringGet_eq_spec {m : RingMap} (hs : m.keys.Sorted (· ≤ ·))
    (key : String) : m.Get key = ringOwnerSpec m key := by
  unfold RingMap.Get ringOwnerSpec
  by_cases hemp : m.keys.isEmpty
  · have hnil : m.keys = [] := by simpa using hemp
    rw [if_pos hemp, hnil]
    simp [minNat]
  · rw [if_neg hemp]
    have hne : m.keys ≠ [] := by simpa using hemp
    have hlen : 0 < m.keys.length := List.length_pos.mpr hne
    have hmono : ∀ a b, a ≤ b → b < m.keys.length →
        (fun i => decide (m.hash key ≤ m.keys.getD i 0)) a = true →
        (fun i => decide (m.hash key ≤ m.keys.getD i 0)) b = true := by
      intro a b hab hbn hfa
      simp only [decide_eq_true_eq] at *
      exact le_trans hfa (sorted_getD_mono hs hab hbn)
    obtain ⟨hrn, hlow, hhigh⟩ := sortSearch_spec
      (fun i => decide (m.hash key ≤ m.keys.getD i 0)) m.keys.length hmono
    by_cases hcase : sortSearch m.keys.length
        (fun i => decide (m.hash key ≤ m.keys.getD i 0)) = m.keys.length
    · rw [if_pos hcase]
      have hfindnone : m.keys.find? (fun x => decide (m.hash key ≤ x)) = none := by
        apply find?_eq_none_of_all
        intro k hk
        have := hlow k (by omega)
        simpa using this
      rw [hfindnone, minNat_sorted hs hne]
    · rw [if_neg hcase]
      have hrn2 : sortSearch m.keys.length
          (fun i => decide (m.hash key ≤ m.keys.getD i 0)) < m.keys.length := by
        omega
      have hfr := hhigh _ le_rfl hrn2
      have hfind : m.keys.find? (fun x => decide (m.hash key ≤ x)) =
          some (m.keys.getD (sortSearch m.keys.length
            (fun i => decide (m.hash key ≤ m.keys.getD i 0))) 0) := by
        apply find?_eq_some_of_first _ _ _ hrn2
        · intro k hk
          simpa using hlow k hk
        · simpa using hfr
      rw [hfind]

theorem ringApplyOp_sorted (m : RingMap) (op : ROp) :
    ((m.applyOp op).keys).Sorted (· ≤ ·) := by
  cases op with
  | add nodes => exact List.sorted_insertionSort (· ≤ ·) _
  | rem node => exact List.sorted_insertionSort (· ≤ ·) _

theorem ringRun_sorted (m : RingMap) (hs : m.keys.Sorted (· ≤ ·))
    (ops : List ROp) : ((m.run ops).keys).Sorted (· ≤ ·) := by
  induction ops generalizing m with
  | nil => exact hs
  | cons op r ih => exact ih (m.applyOp op) (ringApplyOp_sorted m op)

/-- Claim C6, confirmed: for every ring built from a fresh
`sharding.Map` by any sequence of Add and Remove calls, `Get(key)`
returns the node stored at the first ring entry whose hash is at least
`H(key)`, wrapping to the entry with the smallest hash when no such
entry exists, and returns none (`""`) on an empty ring — the right-hand
side `ringOwnerSpec` is that specification stated literally. -/
theorem ring_get_owner (virtualNodes : Nat) (hash : String → Nat)
    (ops : List ROp) (key : String) :
    ((RingMap.new virtualNodes hash).run ops).Get key =
      ringOwnerSpec ((RingMap.new virtualNodes hash).run ops) key := by
  apply ringGet_eq_spec
  apply ringRun_sorted
  simp [RingMap.new]

/-! ### Claim C1: TTL boundary of Get after Set. -/

/-- Claim C1 as stated is false on the code: at the instant
`t = set-time + ttl` the claim demands absence (`set-time + ttl` does not
exceed `t`) but `Get` still returns `(v, true)`, because expiry requires
`now > expiration` strictly; and for a negative ttl the item never
expires although the claim demands absence once `set-time + ttl ≤ t`. -/
theorem get_after_set_boundary_counterexample :
    ((((Store.new 0 (some (PState.lruS []))).SetAt 0 0 "k" "v" 5).GetAt 5 "k").1
        = ("v", true) ∧
      ¬((5 : Int) = 0 ∨ (0 : Int) + 5 > 5)) ∧
    ((((Store.new 0 (some (PState.lruS []))).SetAt 0 0 "k" "v" (-1)).GetAt 100 "k").1
        = ("v", true) ∧
      ¬((-1 : Int) = 0 ∨ (0 : Int) + (-1) > 100)) := by
  refine ⟨⟨by decide, by decide⟩, ⟨by decide, by decide⟩⟩

/-- Claim C1, amended: after `set(k, v, ttl)` at a non-negative clock
reading `now` with no later mutation of `k`, `get(k)` at time `t`
returns `(v, true)` iff `ttl ≤ 0` (never expires) or
`now + ttl ≥ t`; otherwise it returns `("", false)`.  The item becomes
absent only strictly after the expiration instant. -/
theorem get_after_set_ttl (rnd : Nat) (now t ttl : Int) (k v : String)
    (hnow : 0 ≤ now) :
    (((Store.new 0 (some (PState.lruS []))).SetAt rnd now k v ttl).GetAt t k).1 =
      if ttl ≤ 0 ∨ t ≤ now + ttl then (v, true) else ("", false) := by
  simp only [Store.new, Store.SetAt, lookupA, Option.isSome_none,
    Bool.false_eq_true, if_false, Store.GetAt]
  simp only [show ¬(0 < (0 : Nat) ∧ (0 : Nat) ≤ List.length []) by simp,
    if_false, insertA]
  simp only [lookupA, if_pos rfl, Item.expiredAt]
  by_cases hp : 0 < ttl
  · have h1 : ¬ ttl ≤ 0 := by omega
    by_cases h2 : t ≤ now + ttl
    · have : ¬ (decide (0 < now + ttl) && decide (now + ttl < t)) = true := by
        simp; omega
      simp [hp, h1, h2, this]
    · have : (decide (0 < now + ttl) && decide (now + ttl < t)) = true := by
        simp only [Bool.and_eq_true, decide_eq_true_eq]
        omega
      simp [hp, h1, h2, this]
  · have h1 : ttl ≤ 0 := by omega
    simp [hp, h1]

/-- Witness for the amended C1 at a concrete expired input. -/
theorem get_after_set_ttl_witness :
    (((Store.new 0 (some (PState.lruS []))).SetAt 0 0 "k" "v" 3).GetAt 5 "k").1 =
      ("", false) := by
  have h := get_after_set_ttl 0 0 5 3 "k" "v" (by decide)
  simpa using h

/-! ### Claim C4: Restore does not replace. -/

/-- Claim C4 is a code bug: `Restore` decodes into the store's existing
non-nil map, which keeps entries absent from the snapshot, while both the
spec and the function's own doc comment promise replacement.  On a store
holding key `a`, restoring a snapshot holding only `b` leaves `a`
resident. -/
theorem restore_merges_not_replaces :
    (((Store.new 0 (some (PState.lruS []))).SetAt 0 0 "a" "x" 0).Restore
        [("b", ⟨"y", 0⟩)]).items =
      [("a", ⟨"x", 0⟩), ("b", ⟨"y", 0⟩)] ∧
    "a" ∉ keysA [("b", (⟨"y", 0⟩ : Item))] := by
  exact ⟨by decide, by decide⟩

/-! ### Claim C7: transport demultiplexer. -/

/-- Claim C7, confirmed: an accepted connection whose first byte is one
of G, H, P, C, O, D is answered with the exact
`HTTP/1.1 200 OK` response (Content-Length 2, body `ok`) and never
surfaces; any other first byte surfaces as a wrapped connection that
replays the peeked byte before the untouched remainder of the stream. -/
theorem accept_demux (b : Nat) (rest : List Nat) :
    (if httpFirstByte b then
      acceptConn (b :: rest) = .httpReply httpOkResponse ∧
      httpOkResponse =
        "HTTP/1.1 200 OK\r\nConnection: close\r\nContent-Length: 2\r\n\r\n" ++ "ok" ∧
      "ok".length = 2
    else
      acceptConn (b :: rest) = .surfaced ⟨[b], rest⟩ ∧
      BufferedConn.drain ⟨[b], rest⟩ = b :: rest ∧
      ∀ n : Nat, BufferedConn.read ⟨[b], rest⟩ (n + 1) = ([b], ⟨[], rest⟩)) := by
  by_cases h : httpFirstByte b
  · simp only [h, if_true]
    refine ⟨?_, rfl, rfl⟩
    simp [acceptConn, h]
  · simp only [h, if_false, acceptConn, Bool.not_eq_true] at *
    refine ⟨by simp [h], rfl, ?_⟩
    intro n
    simp [BufferedConn.read, List.take_succ_cons, List.drop_succ_cons]

/-! ### Claim C8: strong-mode read gates on leader verification. -/

/-- Claim C8, confirmed against the spec-modelled consistency-mode
gateway: under strong consistency `get` returns the consistency error
(distinct from not-found) whenever leader verification fails, regardless
of the store contents, and reads the local store exactly as an eventual
read when verification succeeds. -/
theorem strong_get_gates_on_verify (stored : Option String) :
    serviceGetMode .strong false stored = .error .notLeader ∧
    GetErr.notLeader ≠ GetErr.notFound ∧
    serviceGetMode .strong true stored = serviceGetMode .eventual false stored := by
  refine ⟨rfl, by decide, ?_⟩
  cases stored <;> rfl

/-! ### Claim C9: single-flight coalescing is absent. -/

set_option maxRecDepth 10000 in
/-- Claim C9 is a code bug: the gateway `Get` performs one store lookup
per call and keeps no in-flight group state, so 100 concurrent gets on
one key perform 100 store invocations, not the at most 20 the
repository's own concurrency test demands. -/
theorem gateway_get_no_coalescing :
    (concurrentGets ⟨[("key1", "value1")], 0⟩ "key1" 100).calls = 100 ∧
    ¬((concurrentGets ⟨[("key1", "value1")], 0⟩ "key1" 100).calls ≤ 20) ∧
    (ServiceImpl.GetOn ⟨[("key1", "value1")], 0⟩ "key1").1 = .ok "value1" := by
  have h : (concurrentGets ⟨[("key1", "value1")], 0⟩ "key1" 100).calls = 100 := by
    rfl
  refine ⟨h, ?_, rfl⟩
  rw [h]
  omega

/-! ### Claim C10: the HTTP /set handler pins ttl to 0. -/

/-- Claim C10, confirmed: the `/set` handler reads only the `key` and
`value` query parameters (so a `ttl` parameter cannot influence it),
submits a `SET` command whose ttl is fixed to 0 whenever the key is
nonempty, and a ttl-0 `SET` applied to any store yields an item that
`Get` finds at every time `t`. -/
theorem httpSet_ttl_always_zero (q : String → Option String) :
    (∀ q2 : String → Option String, (q "key").getD "" = (q2 "key").getD "" →
      (q "value").getD "" = (q2 "value").getD "" →
      httpSetHandler q = httpSetHandler q2) ∧
    ((q "key").getD "" ≠ "" →
      httpSetHandler q =
        .submitted ⟨SetOp, (q "key").getD "", (q "value").getD "", 0⟩) ∧
    (∀ (s : Store) (rnd : Nat) (now t : Int) (k v : String),
      (FSM.applyCommand ⟨SetOp, k, v, 0⟩ rnd now s).map
          (fun s2 => ((s2.GetAt t k).1)) = .ok (v, true)) := by
  refine ⟨?_, ?_, ?_⟩
  · intro q2 hk hv
    simp [httpSetHandler, hk, hv]
  · intro hk
    simp [httpSetHandler, hk]
  · intro s rnd now t k v
    have h1 : FSM.applyCommand ⟨SetOp, k, v, 0⟩ rnd now s =
        .ok (s.SetAt rnd now k v 0) := by
      simp [FSM.applyCommand]
    rw [h1]
    have h2 : ((s.SetAt rnd now k v 0).GetAt t k).1 = (v, true) := by
      have hit : (if (0 : Int) < 0 then now + 0 else 0) = 0 := by norm_num
      simp only [Store.SetAt, hit, Store.GetAt, lookupA_insertA_self,
        Item.expiredAt]
      simp
    simp [Except.map, h2]

/-- Witness for C10 at a concrete query map carrying a ttl parameter. -/
theorem httpSet_ttl_always_zero_witness :
    httpSetHandler
        (fun p => if p = "key" then some "k" else
          if p = "value" then some "v" else
          if p = "ttl" then some "99" else none) =
      .submitted ⟨SetOp, "k", "v", 0⟩ := by
  have h := (httpSet_ttl_always_zero
    (fun p => if p = "key" then some "k" else
      if p = "value" then some "v" else
      if p = "ttl" then some "99" else none)).2.1 (by decide)
  simpa using h

end DCache
